import Mathlib

/-!
Verification of the diffusion-simulation kernel (`get_neighbors`,
`simulate_diffusion`) of the Lab5-Modsim repository.

The numeric kernel is embedded shallowly:
* machine floats are modelled as exact rationals (`ℚ`);
* the numpy 2-D array is a `List (List ℚ)` in row-major order;
* `get_neighbors` mirrors the nested `for di in [-1,0,1]: for dj in [-1,0,1]:`
  loops with the `(0,0)` skip and the bounds filter, in loop order;
* `simulate_diffusion` mirrors the history-building loop; the inner nested
  index loops become a map over `List.range M` / `List.range N` (the source
  writes every cell of `u_new` and reads only from `u`, so the functional map
  is the exact value semantics of the loop body).
-/

/-- Embedding of `get_neighbors(i, j, M, N)`: the in-bounds Moore neighbours
of cell `(i, j)` in an `M × N` grid, enumerated with `di` as the outer loop
and `dj` as the inner loop, skipping `(di, dj) = (0, 0)`. -/
def get_neighbors (i j M N : ℤ) : List (ℤ × ℤ) :=
  ([-1, 0, 1] : List ℤ).flatMap (fun di =>
    ([-1, 0, 1] : List ℤ).filterMap (fun dj =>
      if di = 0 ∧ dj = 0 then none
      else
        let ni := i + di
        let nj := j + dj
        if 0 ≤ ni ∧ ni < M ∧ 0 ≤ nj ∧ nj < N then some (ni, nj) else none))

/-- Reading `u[a, b]` from the embedded grid (total, with default `0` out of
bounds; the kernel only ever reads in-bounds cells of a well-shaped grid). -/
def gridGet (g : List (List ℚ)) (a b : ℤ) : ℚ :=
  (g.getD a.toNat []).getD b.toNat 0

/-- One iteration of the time loop of `simulate_diffusion`:
`u_new[i, j] = (1 - K) * u[i, j] + (K / 8) * diffusion_sum`, where
`diffusion_sum` adds `u` over the in-bounds Moore neighbours of `(i, j)`. -/
def step (g : List (List ℚ)) (M N : ℕ) (K : ℚ) : List (List ℚ) :=
  (List.range M).map (fun (i : ℕ) =>
    (List.range N).map (fun (j : ℕ) =>
      (1 - K) * gridGet g i j +
        (K / 8) * ((get_neighbors i j M N).map (fun p => gridGet g p.1 p.2)).sum))

/-- Embedding of `simulate_diffusion(M, N, T, u0, K)`: the history
`[u0, step u0, step (step u0), …]` of length `T + 1`. -/
def simulate_diffusion (M N T : ℕ) (u0 : List (List ℚ)) (K : ℚ) :
    List (List (List ℚ)) :=
  match T with
  | 0 => [u0]
  | T' + 1 => u0 :: simulate_diffusion M N T' (step u0 M N K) K

/-- The grid has `M` rows, each of length `N`. -/
def Shaped (M N : ℕ) (g : List (List ℚ)) : Prop :=
  g.length = M ∧ ∀ row ∈ g, row.length = N

/-- Every entry of the grid is non-negative. -/
def NonnegGrid (g : List (List ℚ)) : Prop :=
  ∀ row ∈ g, ∀ x ∈ row, 0 ≤ x

/-- Total mass: the sum of all entries of the grid. -/
def gridSum (g : List (List ℚ)) : ℚ :=
  (g.map List.sum).sum

/-- Strict lexicographic order on coordinates (row first, then column). -/
def lexLT (p q : ℤ × ℤ) : Prop :=
  p.1 < q.1 ∨ (p.1 = q.1 ∧ p.2 < q.2)

/-- Mass a single step drains out of the grid, scaled by `8 / K`: the sum,
over all cells, of `(8 - #neighbours) * value`.  Zero exactly when all mass
sits on cells with a full Moore neighbourhood. -/
def lostMass (g : List (List ℚ)) (M N : ℕ) : ℚ :=
  ((List.range M).map (fun (i : ℕ) =>
    ((List.range N).map (fun (j : ℕ) =>
      ((8 : ℚ) - (get_neighbors (i : ℤ) (j : ℤ) M N).length) *
        gridGet g i j)).sum)).sum

/-- The in-bounds cells of the grid, as a finite set of coordinates. -/
def cellFinset (M N : ℕ) : Finset (ℤ × ℤ) :=
  Finset.Ico (0 : ℤ) M ×ˢ Finset.Ico (0 : ℤ) N

/-- The in-bounds Moore neighbourhood, as a finite set. -/
def nbrsFinset (i j : ℤ) (M N : ℕ) : Finset (ℤ × ℤ) :=
  (get_neighbors i j M N).toFinset

/-- Centre-peaked 3×3 grid of the concrete scenario in the spec. -/
def u3center : List (List ℚ) := [[0, 0, 0], [0, 1, 0], [0, 0, 0]]

section NeighborStructure

lemma filterMap_three {α : Type} (f : ℤ → Option α) :
    ([-1, 0, 1] : List ℤ).filterMap f =
      (f (-1)).toList ++ ((f 0).toList ++ (f 1).toList) := by
  cases h1 : f (-1) <;> cases h2 : f 0 <;> cases h3 : f 1 <;>
    simp [List.filterMap_cons, h1, h2, h3]

lemma filter_cons_append {α : Type} (p : α → Bool) (a : α) (l : List α) :
    (a :: l).filter p = (if p a = true then [a] else []) ++ l.filter p := by
  by_cases h : p a = true <;> simp [List.filter_cons, h]

/-- Unfolding lemma: `get_neighbors` is the bounds-filter of the fixed list of
the eight Moore offsets applied to `(i, j)`, in loop order. -/
lemma get_neighbors_eq_filter (i j M N : ℤ) :
    get_neighbors i j M N =
      ([(i + -1, j + -1), (i + -1, j), (i + -1, j + 1),
        (i, j + -1), (i, j + 1),
        (i + 1, j + -1), (i + 1, j), (i + 1, j + 1)] : List (ℤ × ℤ)).filter
        (fun p => decide (0 ≤ p.1 ∧ p.1 < M ∧ 0 ≤ p.2 ∧ p.2 < N)) := by
  simp only [get_neighbors, List.flatMap_cons, List.flatMap_nil, filterMap_three,
    filter_cons_append, List.filter_nil, apply_ite Option.toList]
  norm_num

/-- Membership characterisation: the neighbours of `(i, j)` are exactly the
in-bounds cells at Chebyshev distance one. -/
lemma mem_get_neighbors (i j M N a b : ℤ) :
    (a, b) ∈ get_neighbors i j M N ↔
      (¬(a = i ∧ b = j) ∧ i - 1 ≤ a ∧ a ≤ i + 1 ∧ j - 1 ≤ b ∧ b ≤ j + 1 ∧
        0 ≤ a ∧ a < M ∧ 0 ≤ b ∧ b < N) := by
  rw [get_neighbors_eq_filter]
  simp [List.mem_filter]
  omega

lemma pairwise_get_neighbors (i j M N : ℤ) :
    (get_neighbors i j M N).Pairwise lexLT := by
  rw [get_neighbors_eq_filter]
  apply List.Pairwise.sublist (List.filter_sublist _)
  simp [List.pairwise_cons, lexLT]
  omega

lemma nodup_get_neighbors (i j M N : ℤ) :
    (get_neighbors i j M N).Nodup := by
  apply List.Pairwise.imp _ (pairwise_get_neighbors i j M N)
  intro p q h
  rcases h with h | ⟨h1, h2⟩ <;> intro hpq <;> subst hpq <;> omega

/-- The neighbour count is the number of the eight candidate offsets that land
in bounds. -/
lemma length_get_neighbors (i j M N : ℤ) :
    (get_neighbors i j M N).length =
      (if 1 ≤ i ∧ i < M + 1 ∧ 1 ≤ j ∧ j < N + 1 then 1 else 0) +
      (if 1 ≤ i ∧ i < M + 1 ∧ 0 ≤ j ∧ j < N then 1 else 0) +
      (if 1 ≤ i ∧ i < M + 1 ∧ 0 ≤ j + 1 ∧ j + 1 < N then 1 else 0) +
      (if 0 ≤ i ∧ i < M ∧ 1 ≤ j ∧ j < N + 1 then 1 else 0) +
      (if 0 ≤ i ∧ i < M ∧ 0 ≤ j + 1 ∧ j + 1 < N then 1 else 0) +
      (if 0 ≤ i + 1 ∧ i + 1 < M ∧ 1 ≤ j ∧ j < N + 1 then 1 else 0) +
      (if 0 ≤ i + 1 ∧ i + 1 < M ∧ 0 ≤ j ∧ j < N then 1 else 0) +
      (if 0 ≤ i + 1 ∧ i + 1 < M ∧ 0 ≤ j + 1 ∧ j + 1 < N then 1 else 0) := by
  rw [get_neighbors_eq_filter]
  simp only [filter_cons_append, List.filter_nil, List.length_append,
    apply_ite List.length, List.length_cons, List.length_nil,
    List.length_singleton]
  norm_num
  omega

lemma length_get_neighbors_le_eight (i j M N : ℤ) :
    (get_neighbors i j M N).length ≤ 8 := by
  rw [length_get_neighbors]
  split_ifs <;> omega

end NeighborStructure

section SumMachinery

lemma sum_map_range (n : ℕ) (f : ℕ → ℚ) :
    ((List.range n).map f).sum = ∑ k in Finset.range n, f k := rfl

lemma list_sum_getD (l : List ℚ) :
    l.sum = ∑ k in Finset.range l.length, l.getD k 0 := by
  induction l with
  | nil => simp
  | cons a t ih =>
      rw [List.sum_cons, ih, List.length_cons, Finset.sum_range_succ']
      simp [add_comm]

lemma mem_cellFinset (M N : ℕ) (p : ℤ × ℤ) :
    p ∈ cellFinset M N ↔ 0 ≤ p.1 ∧ p.1 < M ∧ 0 ≤ p.2 ∧ p.2 < N := by
  simp [cellFinset, Finset.mem_product, Finset.mem_Ico]
  tauto

lemma Ico_int_eq_image (M : ℕ) :
    Finset.Ico (0 : ℤ) M = (Finset.range M).image (fun n : ℕ => (n : ℤ)) := by
  ext x
  simp only [Finset.mem_Ico, Finset.mem_image, Finset.mem_range]
  constructor
  · rintro ⟨h1, h2⟩
    exact ⟨x.toNat, by omega, by omega⟩
  · rintro ⟨n, hn, rfl⟩
    omega

lemma sum_Ico_cast (M : ℕ) (f : ℤ → ℚ) :
    ∑ x in Finset.Ico (0 : ℤ) M, f x = ∑ n in Finset.range M, f n := by
  rw [Ico_int_eq_image, Finset.sum_image]
  intro a _ b _ h
  exact_mod_cast h

lemma sum_cells (M N : ℕ) (h : ℤ × ℤ → ℚ) :
    ∑ p in cellFinset M N, h p =
      ∑ i in Finset.range M, ∑ j in Finset.range N, h (i, j) := by
  rw [cellFinset, Finset.sum_product, sum_Ico_cast]
  exact Finset.sum_congr rfl fun i _ => sum_Ico_cast N _

lemma gridGet_natCast (g : List (List ℚ)) (i j : ℕ) :
    gridGet g i j = (g.getD i []).getD j 0 := by
  simp [gridGet]

lemma gridGet_nonneg (g : List (List ℚ)) (h : NonnegGrid g) (a b : ℤ) :
    0 ≤ gridGet g a b := by
  rw [gridGet]
  rcases lt_or_ge a.toNat g.length with h1 | h1
  · rw [List.getD_eq_getElem g [] h1]
    rcases lt_or_ge b.toNat (g[a.toNat]).length with h2 | h2
    · rw [List.getD_eq_getElem _ 0 h2]
      exact h _ (List.getElem_mem h1) _ (List.getElem_mem h2)
    · rw [List.getD_eq_default _ 0 h2]
  · rw [List.getD_eq_default g [] h1]
    simp

lemma gridSum_eq (M N : ℕ) (g : List (List ℚ)) (hS : Shaped M N g) :
    gridSum g = ∑ i in Finset.range M, ∑ j in Finset.range N, gridGet g i j := by
  obtain ⟨hlen, hrow⟩ := hS
  rw [gridSum, list_sum_getD, List.length_map, hlen]
  apply Finset.sum_congr rfl
  intro i hi
  have hi' : i < g.length := by rw [hlen]; exact Finset.mem_range.mp hi
  have hmap : (g.map List.sum).getD i 0 = (g.getD i []).sum := by
    rw [List.getD_eq_getElem _ 0 (by simpa using hi'), List.getElem_map,
      List.getD_eq_getElem g [] hi']
  rw [hmap, list_sum_getD]
  have hrowlen : (g.getD i []).length = N := by
    rw [List.getD_eq_getElem g [] hi']
    exact hrow _ (List.getElem_mem hi')
  rw [hrowlen]
  apply Finset.sum_congr rfl
  intro j _
  rw [gridGet_natCast]

lemma mem_nbrsFinset (i j : ℤ) (M N : ℕ) (p : ℤ × ℤ) :
    p ∈ nbrsFinset i j M N ↔
      (¬(p.1 = i ∧ p.2 = j) ∧ i - 1 ≤ p.1 ∧ p.1 ≤ i + 1 ∧ j - 1 ≤ p.2 ∧
        p.2 ≤ j + 1 ∧ 0 ≤ p.1 ∧ p.1 < M ∧ 0 ≤ p.2 ∧ p.2 < N) := by
  rw [nbrsFinset, List.mem_toFinset]
  rw [show p = (p.1, p.2) from rfl]
  exact mem_get_neighbors i j M N p.1 p.2

lemma card_nbrsFinset (i j : ℤ) (M N : ℕ) :
    (nbrsFinset i j M N).card = (get_neighbors i j M N).length :=
  List.toFinset_card_of_nodup (nodup_get_neighbors i j M N)

lemma nbr_sum_toFinset (i j : ℤ) (M N : ℕ) (f : ℤ × ℤ → ℚ) :
    ((get_neighbors i j M N).map f).sum = ∑ p in nbrsFinset i j M N, f p :=
  (List.sum_toFinset f (nodup_get_neighbors i j M N)).symm

lemma nbrsFinset_subset_cells (i j : ℤ) (M N : ℕ) :
    nbrsFinset i j M N ⊆ cellFinset M N := by
  intro p hp
  rw [mem_nbrsFinset] at hp
  rw [mem_cellFinset]
  tauto

/-- Double counting: summing a function over the neighbourhood of every cell weights
each cell by its own neighbour count, because the in-bounds Moore relation is
symmetric. -/
lemma double_count (M N : ℕ) (f : ℤ × ℤ → ℚ) :
    ∑ c in cellFinset M N, ∑ p in nbrsFinset c.1 c.2 M N, f p =
      ∑ p in cellFinset M N,
        ((get_neighbors p.1 p.2 M N).length : ℚ) * f p := by
  have h1 : ∀ c ∈ cellFinset M N,
      ∑ p in nbrsFinset c.1 c.2 M N, f p =
        ∑ p in cellFinset M N, if p ∈ nbrsFinset c.1 c.2 M N then f p else 0 := by
    intro c _
    rw [Finset.sum_ite_mem,
      Finset.inter_eq_right.mpr (nbrsFinset_subset_cells c.1 c.2 M N)]
  rw [Finset.sum_congr rfl h1, Finset.sum_comm]
  apply Finset.sum_congr rfl
  intro p hp
  rw [Finset.sum_ite, Finset.sum_const_zero, add_zero, Finset.sum_const,
    nsmul_eq_mul]
  have hfilter : (cellFinset M N).filter (fun c => p ∈ nbrsFinset c.1 c.2 M N) =
      nbrsFinset p.1 p.2 M N := by
    ext c
    rw [Finset.mem_filter, mem_cellFinset, mem_nbrsFinset, mem_nbrsFinset]
    rw [mem_cellFinset] at hp
    constructor
    · rintro ⟨hc, hn⟩
      refine ⟨?_, ?_, ?_, ?_, ?_, ?_, ?_, ?_, ?_⟩ <;> omega
    · rintro ⟨hne, h2, h3, h4, h5, h6, h7, h8, h9⟩
      refine ⟨⟨h6, h7, h8, h9⟩, ?_, ?_, ?_, ?_, ?_, ?_, ?_, ?_, ?_⟩ <;> omega
  rw [hfilter, card_nbrsFinset, mul_comm]

lemma gridSum_step_expand (g : List (List ℚ)) (M N : ℕ) (K : ℚ) :
    gridSum (step g M N K) =
      ∑ i in Finset.range M, ∑ j in Finset.range N,
        ((1 - K) * gridGet g i j +
          (K / 8) *
            ((get_neighbors i j M N).map (fun p => gridGet g p.1 p.2)).sum) := by
  rw [gridSum, step, List.map_map, sum_map_range]
  exact Finset.sum_congr rfl fun i _ => by rw [Function.comp_apply, sum_map_range]

lemma lostMass_eq (g : List (List ℚ)) (M N : ℕ) :
    lostMass g M N =
      ∑ p in cellFinset M N,
        ((8 : ℚ) - (get_neighbors p.1 p.2 M N).length) * gridGet g p.1 p.2 := by
  rw [lostMass, sum_map_range, sum_cells]
  exact Finset.sum_congr rfl fun i _ => by rw [sum_map_range]

/-- Exact mass balance of one step on a well-shaped grid: the configured
fraction `K/8` of the boundary-weighted mass `lostMass` leaves the grid. -/
lemma step_sum_formula (g : List (List ℚ)) (M N : ℕ) (K : ℚ)
    (hS : Shaped M N g) :
    gridSum (step g M N K) = gridSum g - (K / 8) * lostMass g M N := by
  rw [gridSum_step_expand, lostMass_eq]
  have hsplit : ∑ i in Finset.range M, ∑ j in Finset.range N,
      ((1 - K) * gridGet g i j +
        (K / 8) *
          ((get_neighbors i j M N).map (fun p => gridGet g p.1 p.2)).sum) =
      (1 - K) * gridSum g +
        (K / 8) * ∑ p in cellFinset M N,
          ((get_neighbors p.1 p.2 M N).length : ℚ) * gridGet g p.1 p.2 := by
    have hdc := double_count M N (fun p => gridGet g p.1 p.2)
    rw [← hdc]
    have hcells : ∑ c in cellFinset M N, ∑ p in nbrsFinset c.1 c.2 M N,
        gridGet g p.1 p.2 =
        ∑ i in Finset.range M, ∑ j in Finset.range N,
          ((get_neighbors i j M N).map (fun p => gridGet g p.1 p.2)).sum := by
      rw [sum_cells M N (fun c => ∑ p in nbrsFinset c.1 c.2 M N, gridGet g p.1 p.2)]
      exact Finset.sum_congr rfl fun i _ => Finset.sum_congr rfl fun j _ =>
        (nbr_sum_toFinset i j M N _).symm
    rw [hcells, gridSum_eq M N g hS, Finset.mul_sum, Finset.mul_sum]
    rw [← Finset.sum_add_distrib]
    exact Finset.sum_congr rfl fun i _ => by
      rw [Finset.mul_sum, Finset.mul_sum, ← Finset.sum_add_distrib]
  rw [hsplit]
  have hexp : ∑ p in cellFinset M N,
      ((8 : ℚ) - (get_neighbors p.1 p.2 M N).length) * gridGet g p.1 p.2 =
      8 * gridSum g - ∑ p in cellFinset M N,
        ((get_neighbors p.1 p.2 M N).length : ℚ) * gridGet g p.1 p.2 := by
    rw [gridSum_eq M N g hS, ← sum_cells M N (fun p => gridGet g p.1 p.2),
      Finset.mul_sum, ← Finset.sum_sub_distrib]
    exact Finset.sum_congr rfl fun p _ => by ring
  rw [hexp]
  ring

lemma lostMass_nonneg (g : List (List ℚ)) (M N : ℕ) (h : NonnegGrid g) :
    0 ≤ lostMass g M N := by
  rw [lostMass_eq]
  apply Finset.sum_nonneg
  intro p _
  apply mul_nonneg
  · have hle := length_get_neighbors_le_eight p.1 p.2 M N
    have hle' : ((get_neighbors p.1 p.2 M N).length : ℚ) ≤ 8 := by
      exact_mod_cast hle
    linarith
  · exact gridGet_nonneg g h p.1 p.2

end SumMachinery

section StepStructure

lemma getD_map_range {α : Type} (n : ℕ) (f : ℕ → α) (d : α) (k : ℕ)
    (hk : k < n) : ((List.range n).map f).getD k d = f k := by
  rw [List.getD_eq_getElem _ d (by simpa using hk)]
  simp

/-- Entry formula of one step: each new cell value is the `(1-K)`-weighted old
value plus `K/8` times the sum over the in-bounds Moore neighbours, the
divisor being the constant `8`; every read is from the old grid `g`. -/
lemma step_entry (g : List (List ℚ)) (M N : ℕ) (K : ℚ) (i j : ℕ)
    (hi : i < M) (hj : j < N) :
    gridGet (step g M N K) i j =
      (1 - K) * gridGet g i j +
        (K / 8) * ((get_neighbors i j M N).map (fun p => gridGet g p.1 p.2)).sum := by
  rw [gridGet_natCast, step, getD_map_range _ _ _ _ hi, getD_map_range _ _ _ _ hj]

lemma step_shaped (g : List (List ℚ)) (M N : ℕ) (K : ℚ) :
    Shaped M N (step g M N K) := by
  constructor
  · simp [step]
  · intro row hrow
    rw [step, List.mem_map] at hrow
    obtain ⟨i, _, rfl⟩ := hrow
    simp

lemma gridGet_eq_getElem (g : List (List ℚ)) (i j : ℕ) (hi : i < g.length)
    (hj : j < (g[i]).length) : gridGet g i j = g[i][j] := by
  rw [gridGet_natCast, List.getD_eq_getElem g [] hi, List.getD_eq_getElem _ 0 hj]

lemma step_nonneg (g : List (List ℚ)) (M N : ℕ) (K : ℚ) (h : NonnegGrid g)
    (hK0 : 0 ≤ K) (hK1 : K ≤ 1) : NonnegGrid (step g M N K) := by
  intro row hrow x hx
  rw [step, List.mem_map] at hrow
  obtain ⟨i, _, rfl⟩ := hrow
  rw [List.mem_map] at hx
  obtain ⟨j, _, rfl⟩ := hx
  apply add_nonneg
  · exact mul_nonneg (by linarith) (gridGet_nonneg g h _ _)
  · apply mul_nonneg (div_nonneg hK0 (by norm_num))
    apply List.sum_nonneg
    intro x hx
    rw [List.mem_map] at hx
    obtain ⟨p, _, rfl⟩ := hx
    exact gridGet_nonneg g h _ _

lemma step_K0 (g : List (List ℚ)) (M N : ℕ) (hS : Shaped M N g) :
    step g M N 0 = g := by
  obtain ⟨hlen, hrow⟩ := hS
  apply List.ext_getElem
  · simp [step, hlen]
  · intro i h1 h2
    have hi : i < M := by simpa [step] using h1
    simp only [step, List.getElem_map, List.getElem_range]
    apply List.ext_getElem
    · have := hrow _ (List.getElem_mem h2)
      simp [this]
    · intro j hj1 hj2
      have hj : j < N := by simpa using hj1
      rw [List.getElem_map, List.getElem_range]
      rw [gridGet_eq_getElem g i j h2 hj2]
      norm_num

lemma simulate_length (M N T : ℕ) (u0 : List (List ℚ)) (K : ℚ) :
    (simulate_diffusion M N T u0 K).length = T + 1 := by
  induction T generalizing u0 with
  | zero => rfl
  | succ t ih => simp [simulate_diffusion, ih]

lemma simulate_head (M N T : ℕ) (u0 : List (List ℚ)) (K : ℚ) :
    (simulate_diffusion M N T u0 K).getD 0 [] = u0 := by
  cases T <;> rfl

lemma simulate_succ_entry (M N T : ℕ) (u0 : List (List ℚ)) (K : ℚ) (t : ℕ)
    (ht : t < T) :
    (simulate_diffusion M N T u0 K).getD (t + 1) [] =
      step ((simulate_diffusion M N T u0 K).getD t []) M N K := by
  induction T generalizing u0 t with
  | zero => omega
  | succ T' ih =>
      cases t with
      | zero =>
          show (u0 :: simulate_diffusion M N T' (step u0 M N K) K).getD (0 + 1) [] =
            step ((u0 :: simulate_diffusion M N T' (step u0 M N K) K).getD 0 []) M N K
          rw [List.getD_cons_succ, List.getD_cons_zero, simulate_head]
      | succ t' =>
          have h1 : (simulate_diffusion M N (T' + 1) u0 K).getD (t' + 1 + 1) [] =
              (simulate_diffusion M N T' (step u0 M N K) K).getD (t' + 1) [] := by
            simp [simulate_diffusion]
          have h2 : (simulate_diffusion M N (T' + 1) u0 K).getD (t' + 1) [] =
              (simulate_diffusion M N T' (step u0 M N K) K).getD t' [] := by
            simp [simulate_diffusion]
          rw [h1, h2]
          exact ih (step u0 M N K) t' (by omega)

/-- Any property preserved by `step` and true of `u0` holds for every snapshot
in the history. -/
lemma simulate_invariant (M N T : ℕ) (u0 : List (List ℚ)) (K : ℚ)
    (P : List (List ℚ) → Prop) (hstep : ∀ g, P g → P (step g M N K))
    (h0 : P u0) : ∀ g ∈ simulate_diffusion M N T u0 K, P g := by
  induction T generalizing u0 with
  | zero =>
      intro g hg
      rw [simulate_diffusion, List.mem_singleton] at hg
      rwa [hg]
  | succ T' ih =>
      intro g hg
      rw [simulate_diffusion, List.mem_cons] at hg
      rcases hg with rfl | hg
      · exact h0
      · exact ih (step u0 M N K) (hstep u0 h0) g hg

end StepStructure

section EqualityCharacterisation

lemma lostMass_eq_zero_iff (g : List (List ℚ)) (M N : ℕ) (hNN : NonnegGrid g) :
    lostMass g M N = 0 ↔
      ∀ a b : ℤ, 0 ≤ a → a < M → 0 ≤ b → b < N →
        (get_neighbors a b M N).length = 8 ∨ gridGet g a b = 0 := by
  rw [lostMass_eq]
  rw [Finset.sum_eq_zero_iff_of_nonneg]
  · constructor
    · intro h a b h1 h2 h3 h4
      have hz := h (a, b) (by rw [mem_cellFinset]; exact ⟨h1, h2, h3, h4⟩)
      rcases mul_eq_zero.mp hz with h5 | h5
      · left
        have hle := length_get_neighbors_le_eight a b M N
        have h8 : ((get_neighbors a b M N).length : ℚ) = 8 := by linarith
        exact_mod_cast h8
      · right
        exact h5
    · intro h p hp
      rw [mem_cellFinset] at hp
      rcases h p.1 p.2 hp.1 hp.2.1 hp.2.2.1 hp.2.2.2 with h5 | h5
      · rw [h5]
        norm_num
      · rw [h5]
        ring
  · intro p _
    apply mul_nonneg
    · have hle := length_get_neighbors_le_eight p.1 p.2 M N
      have hle' : ((get_neighbors p.1 p.2 M N).length : ℚ) ≤ 8 := by
        exact_mod_cast hle
      linarith
    · exact gridGet_nonneg g hNN p.1 p.2

end EqualityCharacterisation

/-- C1 counterexample: on the 2×2 grid with all mass at the corner cell
`(0,0)` and `K = 1` — a grid with non-negative entries and an admissible `K` —
one update drops the total mass from `1` to `3/8`, so the sum is NOT conserved
across every valid update. -/
theorem C1_counterexample :
    Shaped 2 2 [[1, 0], [0, 0]] ∧ NonnegGrid [[1, 0], [0, 0]] ∧
      (0 : ℚ) ≤ 1 ∧ (1 : ℚ) ≤ 1 ∧
      gridSum (step [[1, 0], [0, 0]] 2 2 1) ≠ gridSum [[1, 0], [0, 0]] := by
  have h1 : gridSum (step [[1, 0], [0, 0]] 2 2 1) = 3 / 8 := by
    simp +decide [step, gridSum, gridGet, get_neighbors, List.range_succ]
    norm_num
  have h2 : gridSum [[1, 0], [0, 0]] = 1 := by
    simp [gridSum]
  refine ⟨?_, ?_, by norm_num, by norm_num, ?_⟩
  · refine ⟨rfl, ?_⟩
    intro row hrow
    fin_cases hrow <;> rfl
  · intro row hrow x hx
    fin_cases hrow <;> fin_cases hx <;> norm_num
  · rw [h1, h2]
    norm_num

/-- C1 amended: under the hypotheses of the claim (non-negative entries,
`0 ≤ K ≤ 1`), one update can only lose mass: the sum over all entries of the
new grid is at most — not always equal to — the sum over the previous grid. -/
theorem C1_amended_mass_nonincreasing (M N : ℕ) (g : List (List ℚ)) (K : ℚ)
    (hS : Shaped M N g) (hNN : NonnegGrid g) (hK0 : 0 ≤ K) (hK1 : K ≤ 1) :
    gridSum (step g M N K) ≤ gridSum g := by
  rw [step_sum_formula g M N K hS]
  have h1 : 0 ≤ (K / 8) * lostMass g M N :=
    mul_nonneg (div_nonneg hK0 (by norm_num)) (lostMass_nonneg g M N hNN)
  linarith

/-- Witness for C1 amended at the 2×2 corner-mass grid with `K = 1`. -/
theorem C1_amended_witness :
    gridSum (step [[1, 0], [0, 0]] 2 2 1) ≤ gridSum [[1, 0], [0, 0]] :=
  C1_amended_mass_nonincreasing 2 2 [[1, 0], [0, 0]] 1
    (by refine ⟨rfl, ?_⟩; intro row hrow; fin_cases hrow <;> rfl)
    (by intro row hrow x hx; fin_cases hrow <;> fin_cases hx <;> norm_num)
    (by norm_num) (by norm_num)

/-- C2: each cell of the stepped grid equals
`(1-K) * grid[i][j] + (K/8) * (sum of grid over the in-bounds Moore
neighbours)`, with divisor fixed at `8` whatever the neighbour count, and
every value on the right-hand side is read from the previous grid `g` only. -/
theorem C2_step_entry_formula (g : List (List ℚ)) (M N : ℕ) (K : ℚ) (i j : ℕ)
    (hi : i < M) (hj : j < N) :
    gridGet (step g M N K) i j =
      (1 - K) * gridGet g i j +
        (K / 8) *
          ((get_neighbors i j M N).map (fun p => gridGet g p.1 p.2)).sum :=
  step_entry g M N K i j hi hj

/-- Witness for C2 on a concrete 2×2 grid with `K = 1/2`. -/
theorem C2_witness :
    gridGet (step [[1, 0], [0, 0]] 2 2 (1 / 2)) 0 0 =
      (1 - 1 / 2) * gridGet [[1, 0], [0, 0]] 0 0 +
        ((1 : ℚ) / 2 / 8) *
          ((get_neighbors 0 0 2 2).map
            (fun p => gridGet [[1, 0], [0, 0]] p.1 p.2)).sum :=
  C2_step_entry_formula [[1, 0], [0, 0]] 2 2 (1 / 2) 0 0 (by norm_num)
    (by norm_num)

/-- C3 counterexample to the stated equality condition: the 3×3 centre-peaked
grid with `K = 1` conserves the total mass over one step, yet `K ≠ 0` and not
every cell of the grid is interior (cell `(0,0)` has `3 ≠ 8` neighbours), so
"equality iff every cell is interior or `K = 0`" is false as stated. -/
theorem C3_counterexample :
    Shaped 3 3 u3center ∧ NonnegGrid u3center ∧ (0 : ℚ) ≤ 1 ∧ (1 : ℚ) ≤ 1 ∧
      gridSum (step u3center 3 3 1) = gridSum u3center ∧
      (1 : ℚ) ≠ 0 ∧ (get_neighbors 0 0 3 3).length ≠ 8 := by
  have h1 : gridSum (step u3center 3 3 1) = 1 := by
    simp +decide [u3center, step, gridSum, gridGet, get_neighbors, List.range_succ]
    norm_num
  have h2 : gridSum u3center = 1 := by
    simp [u3center, gridSum]
  refine ⟨?_, ?_, by norm_num, by norm_num, by rw [h1, h2], by norm_num, by decide⟩
  · refine ⟨rfl, ?_⟩
    intro row hrow
    fin_cases hrow <;> rfl
  · intro row hrow x hx
    fin_cases hrow <;> fin_cases hx <;> norm_num

/-- C3 amended: for non-negative entries and `0 ≤ K ≤ 1` the stepped sum never
exceeds the old sum, and it equals the old sum iff `K = 0` or every in-bounds
cell with fewer than `8` in-bounds neighbours (i.e. every non-interior cell)
holds value `0`. -/
theorem C3_amended_mass_decrease_iff (M N : ℕ) (g : List (List ℚ)) (K : ℚ)
    (hS : Shaped M N g) (hNN : NonnegGrid g) (hK0 : 0 ≤ K) (hK1 : K ≤ 1) :
    gridSum (step g M N K) ≤ gridSum g ∧
      (gridSum (step g M N K) = gridSum g ↔
        (K = 0 ∨ ∀ a b : ℤ, 0 ≤ a → a < M → 0 ≤ b → b < N →
          (get_neighbors a b M N).length = 8 ∨ gridGet g a b = 0)) := by
  have hlost := lostMass_nonneg g M N hNN
  have hf := step_sum_formula g M N K hS
  have hK8 : 0 ≤ (K / 8) * lostMass g M N :=
    mul_nonneg (div_nonneg hK0 (by norm_num)) hlost
  constructor
  · rw [hf]
    linarith
  · rw [hf]
    constructor
    · intro heq
      have hz : (K / 8) * lostMass g M N = 0 := by linarith
      rcases mul_eq_zero.mp hz with h5 | h5
      · left
        have : K = 0 := by
          field_simp at h5
          exact h5
        exact this
      · right
        exact (lostMass_eq_zero_iff g M N hNN).mp h5
    · intro h
      rcases h with rfl | h
      · norm_num
      · rw [(lostMass_eq_zero_iff g M N hNN).mpr h]
        ring

/-- Witness for C3 amended at the 2×2 corner-mass grid with `K = 1`. -/
theorem C3_witness :
    gridSum (step [[1, 0], [0, 0]] 2 2 1) ≤ gridSum [[1, 0], [0, 0]] ∧
      (gridSum (step [[1, 0], [0, 0]] 2 2 1) = gridSum [[1, 0], [0, 0]] ↔
        ((1 : ℚ) = 0 ∨ ∀ a b : ℤ, 0 ≤ a → a < (2 : ℕ) → 0 ≤ b → b < (2 : ℕ) →
          (get_neighbors a b (2 : ℕ) (2 : ℕ)).length = 8 ∨
            gridGet [[1, 0], [0, 0]] a b = 0)) :=
  C3_amended_mass_decrease_iff 2 2 [[1, 0], [0, 0]] 1
    (by refine ⟨rfl, ?_⟩; intro row hrow; fin_cases hrow <;> rfl)
    (by intro row hrow x hx; fin_cases hrow <;> fin_cases hx <;> norm_num)
    (by norm_num) (by norm_num)

set_option maxHeartbeats 3200000 in
/-- C4: for `M, N ≥ 2` and in-bounds `(i,j)`, corner cells get exactly 3
neighbours, edge non-corner cells exactly 5, interior cells exactly 8; in a
degenerate grid (`M = 1` or `N = 1`) every cell gets at most 2 neighbours, and
in the 1×1 grid exactly 0. -/
theorem C4_neighbor_counts (M N i j : ℤ) :
    (2 ≤ M → 2 ≤ N → 0 ≤ i → i < M → 0 ≤ j → j < N →
      (((i = 0 ∨ i = M - 1) ∧ (j = 0 ∨ j = N - 1)) →
        (get_neighbors i j M N).length = 3) ∧
      (((i = 0 ∨ i = M - 1 ∨ j = 0 ∨ j = N - 1) ∧
          ¬((i = 0 ∨ i = M - 1) ∧ (j = 0 ∨ j = N - 1))) →
        (get_neighbors i j M N).length = 5) ∧
      ((0 < i ∧ i < M - 1 ∧ 0 < j ∧ j < N - 1) →
        (get_neighbors i j M N).length = 8)) ∧
    ((M = 1 ∨ N = 1) → 0 ≤ i → i < M → 0 ≤ j → j < N →
      (get_neighbors i j M N).length ≤ 2) ∧
    (M = 1 → N = 1 → 0 ≤ i → i < M → 0 ≤ j → j < N →
      (get_neighbors i j M N).length = 0) := by
  refine ⟨fun hM hN h1 h2 h3 h4 => ⟨fun hc => ?_, fun he => ?_, fun hin => ?_⟩,
    fun hd h1 h2 h3 h4 => ?_, fun hm hn h1 h2 h3 h4 => ?_⟩ <;>
    rw [length_get_neighbors] <;> split_ifs <;> omega

/-- Witness for C4: the centre of a 3×3 grid is interior and has 8
neighbours. -/
theorem C4_witness : (get_neighbors 1 1 3 3).length = 8 :=
  ((C4_neighbor_counts 3 3 1 1).1 (by norm_num) (by norm_num) (by norm_num)
    (by norm_num) (by norm_num) (by norm_num)).2.2 (by norm_num)

/-- C5: the history returned by `simulate_diffusion` has exactly `T + 1`
snapshots, all of shape `M × N`, starts with `u0`, and each later snapshot is
one `step` of its predecessor. -/
theorem C5_simulate_structure (M N T : ℕ) (u0 : List (List ℚ)) (K : ℚ)
    (hM : 0 < M) (hN : 0 < N) (hS : Shaped M N u0) :
    (simulate_diffusion M N T u0 K).length = T + 1 ∧
      (∀ g ∈ simulate_diffusion M N T u0 K, Shaped M N g) ∧
      (simulate_diffusion M N T u0 K).getD 0 [] = u0 ∧
      (∀ t : ℕ, t < T →
        (simulate_diffusion M N T u0 K).getD (t + 1) [] =
          step ((simulate_diffusion M N T u0 K).getD t []) M N K) :=
  ⟨simulate_length M N T u0 K,
    simulate_invariant M N T u0 K (Shaped M N)
      (fun g _ => step_shaped g M N K) hS,
    simulate_head M N T u0 K,
    fun t ht => simulate_succ_entry M N T u0 K t ht⟩

/-- Witness for C5 with a 1×1 grid, two steps, `K = 0`. -/
theorem C5_witness : (simulate_diffusion 1 1 2 [[1]] 0).length = 2 + 1 :=
  (C5_simulate_structure 1 1 2 [[1]] 0 (by norm_num) (by norm_num)
    (by refine ⟨rfl, ?_⟩; intro row hrow; fin_cases hrow <;> rfl)).1

/-- C6: with `0 ≤ K ≤ 1`, one step maps grids with non-negative entries to
grids with non-negative entries, hence every snapshot of the history of
`simulate_diffusion` has non-negative entries. -/
theorem C6_nonneg_invariant (M N : ℕ) (K : ℚ) (hK0 : 0 ≤ K) (hK1 : K ≤ 1) :
    (∀ g : List (List ℚ), NonnegGrid g → NonnegGrid (step g M N K)) ∧
      (∀ (T : ℕ) (u0 : List (List ℚ)), NonnegGrid u0 →
        ∀ g ∈ simulate_diffusion M N T u0 K, NonnegGrid g) :=
  ⟨fun g h => step_nonneg g M N K h hK0 hK1,
    fun T u0 h0 =>
      simulate_invariant M N T u0 K NonnegGrid
        (fun g hg => step_nonneg g M N K hg hK0 hK1) h0⟩

/-- Witness for C6 at a concrete 2×2 grid with `K = 1/2`. -/
theorem C6_witness : NonnegGrid (step [[1, 0], [0, 0]] 2 2 (1 / 2)) :=
  (C6_nonneg_invariant 2 2 (1 / 2) (by norm_num) (by norm_num)).1
    [[1, 0], [0, 0]]
    (by intro row hrow x hx; fin_cases hrow <;> fin_cases hx <;> norm_num)

/-- C7: concrete scenario — 3×3 grid, all mass at the centre, `K = 1`: after
one step the four corners and the four edge midpoints each hold `1/8`
(`0.125`), the centre holds `0`, and the total mass is still `1`. -/
theorem C7_concrete_scenario :
    gridGet ((simulate_diffusion 3 3 1 u3center 1).getD 1 []) 0 0 = 1 / 8 ∧
    gridGet ((simulate_diffusion 3 3 1 u3center 1).getD 1 []) 0 2 = 1 / 8 ∧
    gridGet ((simulate_diffusion 3 3 1 u3center 1).getD 1 []) 2 0 = 1 / 8 ∧
    gridGet ((simulate_diffusion 3 3 1 u3center 1).getD 1 []) 2 2 = 1 / 8 ∧
    gridGet ((simulate_diffusion 3 3 1 u3center 1).getD 1 []) 0 1 = 1 / 8 ∧
    gridGet ((simulate_diffusion 3 3 1 u3center 1).getD 1 []) 1 0 = 1 / 8 ∧
    gridGet ((simulate_diffusion 3 3 1 u3center 1).getD 1 []) 1 2 = 1 / 8 ∧
    gridGet ((simulate_diffusion 3 3 1 u3center 1).getD 1 []) 2 1 = 1 / 8 ∧
    gridGet ((simulate_diffusion 3 3 1 u3center 1).getD 1 []) 1 1 = 0 ∧
    gridSum ((simulate_diffusion 3 3 1 u3center 1).getD 1 []) = 1 := by
  have h : (simulate_diffusion 3 3 1 u3center 1).getD 1 [] =
      [[1/8, 1/8, 1/8], [1/8, 0, 1/8], [1/8, 1/8, 1/8]] := by
    simp +decide [u3center, simulate_diffusion, step, gridGet, get_neighbors,
      List.range_succ]
  rw [h]
  exact ⟨rfl, rfl, rfl, rfl, rfl, rfl, rfl, rfl, rfl, by norm_num [gridSum]⟩

/-- C8: with `K = 0` one step returns the input grid unchanged, and every
snapshot of the history equals the initial grid. -/
theorem C8_step_K0_identity (M N : ℕ) (g : List (List ℚ)) (hS : Shaped M N g) :
    step g M N 0 = g ∧
      ∀ (T : ℕ), ∀ h ∈ simulate_diffusion M N T g 0, h = g := by
  refine ⟨step_K0 g M N hS, fun T =>
    simulate_invariant M N T g 0 (fun h => h = g) ?_ rfl⟩
  intro g' hg'
  rw [hg']
  exact step_K0 g M N hS

/-- Witness for C8 at a concrete 2×2 grid. -/
theorem C8_witness : step [[1, 0], [0, 0]] 2 2 0 = [[1, 0], [0, 0]] :=
  (C8_step_K0_identity 2 2 [[1, 0], [0, 0]]
    (by refine ⟨rfl, ?_⟩; intro row hrow; fin_cases hrow <;> rfl)).1

/-- C9: `get_neighbors` is total, and (for any integer inputs, in range or
not) it returns only in-bounds coordinates, never the cell itself, and never
repeats a coordinate. -/
theorem C9_get_neighbors_sound (i j M N : ℤ) (hM : 0 < M) (hN : 0 < N) :
    (∀ p ∈ get_neighbors i j M N,
      0 ≤ p.1 ∧ p.1 < M ∧ 0 ≤ p.2 ∧ p.2 < N ∧ p ≠ (i, j)) ∧
      (get_neighbors i j M N).Nodup := by
  constructor
  · intro p hp
    obtain ⟨a, b⟩ := p
    rw [mem_get_neighbors] at hp
    simp only [ne_eq, Prod.mk.injEq]
    omega
  · exact nodup_get_neighbors i j M N

/-- Witness for C9 at cell `(0,0)` of a 3×3 grid. -/
theorem C9_witness : (get_neighbors 0 0 3 3).Nodup :=
  (C9_get_neighbors_sound 0 0 3 3 (by norm_num) (by norm_num)).2

/-- C10: for an in-bounds cell, the neighbour list is strictly increasing in
lexicographic (row, column) order — a deterministic, stable enumeration. -/
theorem C10_lex_order (i j M N : ℤ) (hi : 0 ≤ i) (hiM : i < M) (hj : 0 ≤ j)
    (hjN : j < N) : (get_neighbors i j M N).Pairwise lexLT :=
  pairwise_get_neighbors i j M N

/-- Witness for C10 at cell `(1,1)` of a 3×3 grid. -/
theorem C10_witness : (get_neighbors 1 1 3 3).Pairwise lexLT :=
  C10_lex_order 1 1 3 3 (by norm_num) (by norm_num) (by norm_num) (by norm_num)
